import Mathlib

/-!
Verification of the commit-statistics aggregation engine of the
oss-stats-dashboard repository (update.js and its second variant, plus the
unnamed variant src/unnamed/part_000).

The JavaScript is embedded shallowly:
* commit records become the `Commit` structure ("" models a missing/empty
  string field, matching JavaScript truthiness of `undefined` and `""`);
* dates keep only the observable parts (`getUTCFullYear`, `getUTCMonth`);
* JavaScript `Map` (insertion ordered) becomes an association list;
* JavaScript numbers appearing in `avg` become `JsNum` (finite rational,
  Infinity, or NaN) so that division by a zero month count is represented;
* the case-insensitive `BOT_PATTERNS` regexes are implemented directly as
  word-boundary / prefix / suffix / substring tests over lowercased text;
* the paginated fetch loop becomes a fuel-indexed recursion over an abstract
  response function, with errors as `Except.error`.
-/

namespace OssStats

/-- The observable part of a JavaScript `Date` used by the aggregators:
`getUTCFullYear()` and `getUTCMonth()` (0..11). -/
structure UTCDate where
  year : Int
  month : Fin 12
deriving DecidableEq

/-- One fetched commit record.  String fields use `""` for an absent value,
mirroring JavaScript where both `undefined` and `""` are falsy in the
`a || b` chains of the source.  `parents` is the number of parent commits;
`authorType` models `c.author?.type` (used only by `isBotCommit`). -/
structure Commit where
  login : String
  name : String
  email : String
  authorDate : Option UTCDate
  committerDate : Option UTCDate
  parents : Nat
  authorType : String
deriving DecidableEq

/-- Word characters for JavaScript regex word boundaries: `[A-Za-z0-9_]`. -/
def isWordChar (c : Char) : Bool := c.isAlphanum || c = '_'

/-- Whether the first list is an initial segment of the second. -/
def leadsWith : List Char → List Char → Bool
  | [], _ => true
  | _ :: _, [] => false
  | a :: as, b :: bs => a = b && leadsWith as bs

/-- Whether `pat` occurs at the head of `rest`, with a regex word boundary
on both sides (`prev` is the character just before `rest`, if any). -/
def wbHere (prev : Option Char) (pat rest : List Char) : Bool :=
  leadsWith pat rest
    && (match prev with | none => true | some c => !isWordChar c)
    && (match (rest.drop pat.length).head? with | none => true | some c => !isWordChar c)

/-- Search for a word-bounded occurrence of `pat` anywhere in the text. -/
def wbSearch (pat : List Char) : Option Char → List Char → Bool
  | prev, [] => wbHere prev pat []
  | prev, c :: cs => wbHere prev pat (c :: cs) || wbSearch pat (some c) cs

/-- JavaScript `/\bLIT\b/.test s` for a literal `LIT` beginning and ending in
word characters. -/
def hasWordBounded (pat : String) (s : List Char) : Bool := wbSearch pat.data none s

/-- Plain substring test, JavaScript `/LIT/.test s`. -/
def hasSubstr (pat : List Char) : List Char → Bool
  | [] => leadsWith pat []
  | c :: cs => leadsWith pat (c :: cs) || hasSubstr pat cs

/-- Suffix test on character lists. -/
def endsWithL (pat l : List Char) : Bool := leadsWith pat.reverse l.reverse

/-- Lowercasing, modelling `String.prototype.toLowerCase` on the ASCII
identifiers involved here. -/
def lowerL (l : List Char) : List Char := l.map Char.toLower

/-- The thirteen `BOT_PATTERNS` regexes shared by both variants
(`/\[bot\]$/i`, `/-bot$/i`, `/^bot-/i`, `/\bdependabot\b/i`,
`/\bgithub-actions\b/i`, `/\brenovate\b/i`, `/\bpre-commit-ci\b/i`,
`/\bsemantic-release\b/i`, `/\bpercy\b/i`, `/\bsnyk\b/i`,
`/\bauto[-_ ]?merge\b/i`, `/\bautomation\b/i`, `/\brelease[-_ ]?bot\b/i`);
all are case-insensitive, so the text is lowercased first.  The optional
`[-_ ]?` separator is expanded into its four literal alternatives. -/
def botPatternsShared (s : String) : Bool :=
  let l := lowerL s.data
  endsWithL "[bot]".data l || endsWithL "-bot".data l || leadsWith "bot-".data l
    || hasWordBounded "dependabot" l || hasWordBounded "github-actions" l
    || hasWordBounded "renovate" l || hasWordBounded "pre-commit-ci" l
    || hasWordBounded "semantic-release" l || hasWordBounded "percy" l
    || hasWordBounded "snyk" l
    || hasWordBounded "automerge" l || hasWordBounded "auto-merge" l
    || hasWordBounded "auto_merge" l || hasWordBounded "auto merge" l
    || hasWordBounded "automation" l
    || hasWordBounded "releasebot" l || hasWordBounded "release-bot" l
    || hasWordBounded "release_bot" l || hasWordBounded "release bot" l

/-- `BOT_PATTERNS` of src/unnamed/part_000 (the thirteen shared regexes). -/
def botPatternsP0 (s : String) : Bool := botPatternsShared s

/-- `BOT_PATTERNS` of update.js: the shared regexes plus `/\bcopilot\b/i`. -/
def botPatternsUpd (s : String) : Bool :=
  botPatternsShared s || hasWordBounded "copilot" (lowerL s.data)

/-- part_000 `looksLikeBot(x)`: falsy input is never a bot, otherwise the
generic patterns are tested on the single field. -/
def looksLikeBotP0 (x : String) : Bool := if x = "" then false else botPatternsP0 x

/-- The `REPO_DENY` table of update.js: per-repository deny-listed logins. -/
def repoDeny (slug : String) : List String :=
  if slug = "SeleniumHQ/selenium" then
    ["selenium-ci", "renovate[bot]"]
  else if slug = "microsoft/playwright" then
    ["microsoft-playwright-automation[bot]", "playwrightmachine",
     "github-actions[bot]", "dependabot[bot]", "Copilot"]
  else []

/-- JavaScript `[login, name, email].filter(Boolean).join(" ")`. -/
def joinTruthy (parts : List String) : String :=
  String.intercalate " " (parts.filter fun s => s ≠ "")

/-- update.js `looksLikeBot(repoFull, login, name, email)`: a truthy login on
the repository deny-list is a bot; otherwise the generic patterns are tested
against the space-joined truthy fields. -/
def looksLikeBot (repoFull login name email : String) : Bool :=
  if login ≠ "" ∧ login ∈ repoDeny repoFull then true
  else botPatternsUpd (joinTruthy [login, name, email])

/-- Second-variant `isBotCommit(c)`: author account type `Bot`, a login
ending in `[bot]` (case-insensitive), or `bot` occurring in the lowercased
name or email. -/
def isBotCommit (c : Commit) : Bool :=
  c.authorType = "Bot"
    || endsWithL "[bot]".data (lowerL c.login.data)
    || hasSubstr "bot".data (lowerL c.name.data)
    || hasSubstr "bot".data (lowerL c.email.data)

/-- The resolved contributor key, `login || email || name || "unknown"`.
This is `authorId` of the second variant and the inline `key`/`id`
computation of the other two aggregators. -/
def authorId (c : Commit) : String :=
  if c.login ≠ "" then c.login
  else if c.email ≠ "" then c.email
  else if c.name ≠ "" then c.name
  else "unknown"

/-- `c.commit?.author?.date || c.commit?.committer?.date`. -/
def commitWhen (c : Commit) : Option UTCDate :=
  match c.authorDate with
  | some d => some d
  | none => c.committerDate

/-- Association-list read, JavaScript `m.get(k) || 0`. -/
def tallyGet : List (String × Nat) → String → Nat
  | [], _ => 0
  | (k', v) :: rest, k => if k' = k then v else tallyGet rest k

/-- JavaScript `m.set(k, (m.get(k) || 0) + 1)` on an insertion-ordered map:
an existing key keeps its position, a new key is appended. -/
def tallyInc : List (String × Nat) → String → List (String × Nat)
  | [], k => [(k, 1)]
  | (k', v) :: rest, k =>
    if k' = k then (k', v + 1) :: rest else (k', v) :: tallyInc rest k

/-- JavaScript `Set.add` on an insertion-ordered set. -/
def setAdd (s : List String) (k : String) : List String :=
  if k ∈ s then s else s ++ [k]

/-- Increment one bucket of a 12-month counter array. -/
def bump (f : Fin 12 → Nat) (m : Fin 12) : Fin 12 → Nat :=
  fun x => if x = m then f x + 1 else f x

/-- A JavaScript number as produced by the average computation: a finite
rational, positive Infinity, or NaN. -/
inductive JsNum where
  | num : ℚ → JsNum
  | inf : JsNum
  | nan : JsNum
deriving DecidableEq

/-- JavaScript division of two nonnegative integers: `0/0` is NaN, `n/0`
with `n > 0` is Infinity. -/
def jsDivNat (a b : Nat) : JsNum :=
  if b = 0 then (if a = 0 then JsNum.nan else JsNum.inf) else JsNum.num ((a : ℚ) / (b : ℚ))

/-- JavaScript `Math.round` on a finite value: round half toward positive
infinity. -/
def jsRound (q : ℚ) : ℤ := ⌊q + 1 / 2⌋

/-- `Math.round(x * 100) / 100`, extended to Infinity and NaN as in
JavaScript. -/
def round2 : JsNum → JsNum
  | JsNum.num q => JsNum.num ((jsRound (q * 100) : ℚ) / 100)
  | JsNum.inf => JsNum.inf
  | JsNum.nan => JsNum.nan

/-- Whether a `JsNum` is a finite number. -/
def JsNum.isFinite : JsNum → Bool
  | JsNum.num _ => true
  | JsNum.inf => false
  | JsNum.nan => false

/-- part_000 inline bot test: `looksLikeBot(login) || looksLikeBot(name) ||
looksLikeBot(email)`. -/
def p0IsBot (c : Commit) : Bool :=
  looksLikeBotP0 c.login || looksLikeBotP0 c.name || looksLikeBotP0 c.email

/-- update.js commit-level classifier call,
`looksLikeBot(repoFull, login, name, email)`. -/
def insBot (repoFull : String) (c : Commit) : Bool :=
  looksLikeBot repoFull c.login c.name c.email

/-- Loop state of part_000 `aggregate`. -/
structure AggSt where
  monthly : Fin 12 → Nat
  byAuthor : List (String × Nat)
  total : Nat

/-- One iteration of the part_000 `aggregate` loop: skip dateless commits,
skip other years, count the commit and its month, then tally the author
unless a field looks like a bot. -/
def aggStep (year : Int) (st : AggSt) (c : Commit) : AggSt :=
  match commitWhen c with
  | none => st
  | some dt =>
    if dt.year = year then
      let st1 : AggSt :=
        { st with total := st.total + 1, monthly := bump st.monthly dt.month }
      if p0IsBot c then st1
      else { st1 with byAuthor := tallyInc st1.byAuthor (authorId c) }
    else st

/-- Result record of part_000 `aggregate`:
`{ total, monthly, avg, unique, top }`. -/
structure Agg where
  total : Nat
  monthly : List Nat
  avg : JsNum
  unique : Nat
  top : List (String × Nat)
deriving DecidableEq

/-- part_000 `aggregate(commits, monthsCount, year)`.  The authors map is
sorted descending by count with JavaScript's stable `Array.prototype.sort`
and truncated to five entries. -/
def aggregate (commits : List Commit) (monthsCount : Nat) (year : Int) : Agg :=
  let st := commits.foldl (aggStep year)
    { monthly := fun _ => 0, byAuthor := [], total := 0 }
  { total := st.total
    monthly := List.ofFn st.monthly
    avg := round2 (jsDivNat st.total monthsCount)
    unique := st.byAuthor.length
    top := (st.byAuthor.mergeSort fun a b => decide (b.2 ≤ a.2)).take 5 }

/-- Loop state of update.js `aggregateInsightsStyle`. -/
structure InsSt where
  monthlyAll : Fin 12 → Nat
  monthlyHuman : Fin 12 → Nat
  byAuthorAll : List (String × Nat)
  byAuthorHuman : List (String × Nat)

/-- One iteration of the `aggregateInsightsStyle` loop: skip dateless
commits and other years, count into the all-identities tallies, and into the
human tallies only when the classifier does not flag the identity. -/
def insStep (repoFull : String) (year : Int) (st : InsSt) (c : Commit) : InsSt :=
  match commitWhen c with
  | none => st
  | some dt =>
    if dt.year = year then
      let key := authorId c
      let st1 : InsSt :=
        { st with monthlyAll := bump st.monthlyAll dt.month,
                  byAuthorAll := tallyInc st.byAuthorAll key }
      if insBot repoFull c then st1
      else { st1 with monthlyHuman := bump st1.monthlyHuman dt.month,
                      byAuthorHuman := tallyInc st1.byAuthorHuman key }
    else st

/-- The all-identities view of `aggregateInsightsStyle`
(`{ total, monthly, avg, unique }`). -/
structure AllView where
  total : Nat
  monthly : List Nat
  avg : JsNum
  unique : Nat
deriving DecidableEq

/-- Result of `aggregateInsightsStyle`: the human-only view (used by the
charts) and the all-identities view. -/
structure InsAgg where
  human : Agg
  all : AllView
deriving DecidableEq

/-- update.js `aggregateInsightsStyle(commits, repoFull, monthsCount, year)`.
Totals are the sums of the per-author maps, as in the source. -/
def aggregateInsightsStyle (commits : List Commit) (repoFull : String)
    (monthsCount : Nat) (year : Int) : InsAgg :=
  let st := commits.foldl (insStep repoFull year)
    { monthlyAll := fun _ => 0, monthlyHuman := fun _ => 0,
      byAuthorAll := [], byAuthorHuman := [] }
  let totalAll := (st.byAuthorAll.map Prod.snd).sum
  let totalHuman := (st.byAuthorHuman.map Prod.snd).sum
  { human :=
      { total := totalHuman
        monthly := List.ofFn st.monthlyHuman
        avg := round2 (jsDivNat totalHuman monthsCount)
        unique := st.byAuthorHuman.length
        top := (st.byAuthorHuman.mergeSort fun a b => decide (b.2 ≤ a.2)).take 5 }
    all :=
      { total := totalAll
        monthly := List.ofFn st.monthlyAll
        avg := round2 (jsDivNat totalAll monthsCount)
        unique := st.byAuthorAll.length } }

/-- Second-variant `monthsElapsedInYear(y, refDate)`. -/
def monthsElapsedInYear (y : Int) (refDate : UTCDate) : Nat :=
  if y < refDate.year then 12
  else if y > refDate.year then 0
  else refDate.month.val + 1

/-- Whether a commit has an author date in the given year (the filter of
`aggregateYear`; the committer date is not consulted there). -/
def hasAuthorDateIn (year : Int) (c : Commit) : Bool :=
  match c.authorDate with
  | none => false
  | some d => d.year = year

/-- Result record of the second-variant `aggregateYear`. -/
structure AggY where
  totalCommits : Nat
  monthly : List Nat
  avgPerMonth : JsNum
  uniqueDevs : Nat
  top : List (String × Nat)
deriving DecidableEq

/-- Second-variant `aggregateYear(commits, year)`.  The module-level `NOW`
becomes the explicit `now` argument.  `elapsed` is
`monthsElapsedInYear(year, NOW) || 12`, and the average falls back to `0`
only when `elapsed` is zero (dead in practice, kept for faithfulness). -/
def aggregateYear (commits : List Commit) (year : Int) (now : UTCDate) : AggY :=
  let list := commits.filter (hasAuthorDateIn year)
  let totalCommits := list.length
  let monthly := list.foldl
    (fun f c => match c.authorDate with
      | some d => bump f d.month
      | none => f)
    (fun _ => 0)
  let devs := list.foldl
    (fun s c => if isBotCommit c then s else setAdd s (authorId c)) []
  let uniqueDevs := devs.length
  let elapsed := if monthsElapsedInYear year now = 0 then 12
    else monthsElapsedInYear year now
  let avgPerMonth := if elapsed = 0 then JsNum.num 0
    else round2 (jsDivNat totalCommits elapsed)
  let counts := list.foldl
    (fun m c => if isBotCommit c then m else tallyInc m (authorId c)) []
  let top := (counts.mergeSort fun a b => decide (b.2 ≤ a.2)).take 5
  { totalCommits := totalCommits
    monthly := List.ofFn monthly
    avgPerMonth := avgPerMonth
    uniqueDevs := uniqueDevs
    top := top }

/-- One page of a paginated GitHub response: success flag, HTTP status,
response body, parsed items (abstracted to numbers), and the parsed
`rel="next"` link (abstracted to a page address). -/
structure PageResp where
  ok : Bool
  status : Nat
  body : String
  items : List Nat
  next : Option Nat
deriving DecidableEq

/-- The error thrown by `ghPaginated` on a non-success page, carrying the
status code and response body of that page. -/
inductive GhError where
  | upstream (status : Nat) (body : String)
deriving DecidableEq

/-- `ghPaginated` (identical in part_000 and the second variant): follow the
`next` link while present, concatenating page items in order; on a
non-success page throw, discarding everything accumulated.  `world` maps a
page address to its response; `fuel` bounds the loop so the recursion is
structural — theorems always supply enough fuel for the chain at hand. -/
def ghPaginated (world : Nat → PageResp) : Nat → Option Nat → Except GhError (List Nat)
  | _, none => Except.ok []
  | 0, some _ => Except.ok []
  | fuel + 1, some u =>
    let r := world u
    if r.ok then
      match ghPaginated world fuel r.next with
      | Except.ok rest => Except.ok (r.items ++ rest)
      | Except.error e => Except.error e
    else Except.error (GhError.upstream r.status r.body)

/-- The page addresses visited by a fully successful pagination chain
starting at the given link: every visited page is `ok` and the chain follows
the `next` links until one is absent. -/
inductive Follows (world : Nat → PageResp) : Option Nat → List Nat → Prop where
  | nil : Follows world none []
  | cons {u : Nat} {us : List Nat} :
      (world u).ok = true → Follows world (world u).next us →
      Follows world (some u) (u :: us)

/-- A pagination chain that reaches a non-success page `v` after `n`
successful pages. -/
inductive FailsAt (world : Nat → PageResp) : Option Nat → Nat → Nat → Prop where
  | here {u : Nat} : (world u).ok = false → FailsAt world (some u) u 0
  | step {u v n : Nat} :
      (world u).ok = true → FailsAt world (world u).next v n →
      FailsAt world (some u) v (n + 1)

/-! Specification vocabulary used to state the claims. -/

/-- Month selector of the shared date/year filter: the UTC month when the
commit has a usable date in the target year. -/
def keptMonth (year : Int) (c : Commit) : Option (Fin 12) :=
  match commitWhen c with
  | none => none
  | some dt => if dt.year = year then some dt.month else none

/-- Whether a commit survives the shared date/year filter. -/
def keptIn (year : Int) (c : Commit) : Bool := (keptMonth year c).isSome

/-- Commits contributing to the part_000 author tally. -/
def humanKeptP0 (year : Int) (c : Commit) : Bool := keptIn year c && !p0IsBot c

/-- Commits contributing to the `aggregateInsightsStyle` human tally. -/
def humanKeptIns (repoFull : String) (year : Int) (c : Commit) : Bool :=
  keptIn year c && !insBot repoFull c

/-- Month selector for the human monthly buckets of
`aggregateInsightsStyle`. -/
def humanMonthIns (repoFull : String) (year : Int) (c : Commit) : Option (Fin 12) :=
  if insBot repoFull c then none else keptMonth year c

/-- Month selector of `aggregateYear` (author date only). -/
def yearMonth (c : Commit) : Option (Fin 12) := c.authorDate.map fun d => d.month

/-- The resolved keys of the commits that feed the part_000 author tally, in
input order. -/
def contribKeys (commits : List Commit) (year : Int) : List String :=
  (commits.filter (humanKeptP0 year)).map authorId

/-- First-seen position of a contributor key among the tallied commits. -/
def rankOf (commits : List Commit) (year : Int) (k : String) : Nat :=
  (contribKeys commits year).indexOf k

/-- The resolved keys of the commits satisfying a tally predicate, in input
order (one entry per contributing commit). -/
def keysOf (p : Commit → Bool) (commits : List Commit) : List String :=
  (commits.filter p).map authorId

/-- First-seen position of a key among the commits feeding a tally. -/
def rankP (p : Commit → Bool) (commits : List Commit) (k : String) : Nat :=
  (keysOf p commits).indexOf k

/-- Generic tally-building step shared by the aggregator projections. -/
def tallyStep (p : Commit → Bool) (t : List (String × Nat)) (c : Commit) :
    List (String × Nat) :=
  if p c then tallyInc t (authorId c) else t

/-- Generic monthly-bucket step shared by the aggregator projections. -/
def monthStep (g : Commit → Option (Fin 12)) (f : Fin 12 → Nat) (c : Commit) :
    Fin 12 → Nat :=
  match g c with
  | some m => bump f m
  | none => f

/-- Fold a tally from the empty map over a commit list. -/
def tallyFold (p : Commit → Bool) (cs : List Commit) : List (String × Nat) :=
  cs.foldl (tallyStep p) []

/-- Fold the monthly buckets from zero over a commit list. -/
def monthFold (g : Commit → Option (Fin 12)) (cs : List Commit) : Fin 12 → Nat :=
  cs.foldl (monthStep g) (fun _ => 0)

/-- The distinct elements of a list in first-seen order. -/
def firstSeen (ks : List String) : List String := ks.foldl setAdd []

/-! Concrete inputs used by witnesses and counterexamples. -/

/-- Build an ordinary single-parent commit. -/
def mkCommit (login name email : String) (d : Option UTCDate) : Commit :=
  { login := login, name := name, email := email, authorDate := d,
    committerDate := none, parents := 1, authorType := "" }

/-- January 2024. -/
def jan24 : UTCDate := { year := 2024, month := 0 }

/-- A human commit by alice in January 2024. -/
def caAlice : Commit := mkCommit "alice" "Alice" "alice@example.com" (some jan24)

/-- A human commit by bob in January 2024. -/
def cbBob : Commit := mkCommit "bob" "Bob" "bob@example.com" (some jan24)

/-- A two-parent (merge) commit by alice in January 2024. -/
def cMerge : Commit :=
  { mkCommit "alice" "Alice" "alice@example.com" (some jan24) with parents := 2 }

/-- A bot commit in January 2024. -/
def cBot : Commit := mkCommit "dependabot[bot]" "" "" (some jan24)

/-- A second commit resolving to the same contributor key as `caAlice`
despite a different display name and email. -/
def caAlice2 : Commit := mkCommit "alice" "Alice B" "ab@example.org" (some jan24)

/-- A commit with neither an author nor a committer date. -/
def cNoDate : Commit := mkCommit "carol" "Carol" "carol@example.com" none

/-- A commit with no login and no email, only a display name. -/
def cNameOnly : Commit := mkCommit "" "Dana" "" (some jan24)

/-- A successful page. -/
def okPage (its : List Nat) (nxt : Option Nat) : PageResp :=
  { ok := true, status := 200, body := "", items := its, next := nxt }

/-- A two-page successful pagination world. -/
def wGood : Nat → PageResp := fun u =>
  if u = 0 then okPage [1, 2] (some 1) else okPage [3] none

/-- A world whose second page fails with HTTP 500. -/
def wBad : Nat → PageResp := fun u =>
  if u = 0 then okPage [1] (some 1)
  else { ok := false, status := 500, body := "boom", items := [], next := none }

/-! Association-list (JavaScript `Map`) lemmas. -/

theorem tallyGet_tallyInc_self (t : List (String × Nat)) (k : String) :
    tallyGet (tallyInc t k) k = tallyGet t k + 1 := by
  induction t with
  | nil => simp [tallyInc, tallyGet]
  | cons q rest ih =>
    obtain ⟨k', v⟩ := q
    by_cases h : k' = k
    · simp [tallyInc, tallyGet, h]
    · simp [tallyInc, tallyGet, h, ih]

theorem tallyGet_tallyInc_ne (t : List (String × Nat)) {k₁ k₂ : String}
    (h : k₁ ≠ k₂) : tallyGet (tallyInc t k₁) k₂ = tallyGet t k₂ := by
  induction t with
  | nil => simp [tallyInc, tallyGet, h]
  | cons q rest ih =>
    obtain ⟨k', v⟩ := q
    by_cases hk : k' = k₁
    · subst hk
      simp [tallyInc, tallyGet, h]
    · by_cases hk2 : k' = k₂ <;> simp [tallyInc, tallyGet, hk, hk2, Ne.symm h, ih]

theorem tallyInc_snd_sum (t : List (String × Nat)) (k : String) :
    ((tallyInc t k).map Prod.snd).sum = (t.map Prod.snd).sum + 1 := by
  induction t with
  | nil => simp [tallyInc]
  | cons q rest ih =>
    obtain ⟨k', v⟩ := q
    by_cases h : k' = k
    · simp [tallyInc, h]
      omega
    · simp [tallyInc, h, ih]
      omega

theorem tallyInc_keys (t : List (String × Nat)) (k : String) :
    (tallyInc t k).map Prod.fst = setAdd (t.map Prod.fst) k := by
  induction t with
  | nil => simp [tallyInc, setAdd]
  | cons q rest ih =>
    obtain ⟨k', v⟩ := q
    by_cases h : k' = k
    · subst h
      simp [tallyInc, setAdd]
    · by_cases hm : k ∈ rest.map Prod.fst
      · simp [tallyInc, h, ih, setAdd, hm, Ne.symm h]
      · simp [tallyInc, h, ih, setAdd, hm, Ne.symm h]

theorem tallyGet_of_mem {t : List (String × Nat)} (h : (t.map Prod.fst).Nodup)
    {q : String × Nat} (hq : q ∈ t) : tallyGet t q.1 = q.2 := by
  induction t with
  | nil => cases hq
  | cons r rest ih =>
    obtain ⟨k', v⟩ := r
    rcases List.mem_cons.mp hq with hq' | hq'
    · subst hq'
      simp [tallyGet]
    · have h' : k' ∉ rest.map Prod.fst ∧ (rest.map Prod.fst).Nodup := by
        simpa using h
      have hk : k' ≠ q.1 := by
        intro he
        exact h'.1 (he ▸ List.mem_map_of_mem Prod.fst hq')
      simp [tallyGet, hk, ih h'.2 hq']

/-! `setAdd` (JavaScript `Set`) lemmas. -/

theorem mem_setAdd {a k : String} {s : List String} :
    a ∈ setAdd s k ↔ a ∈ s ∨ a = k := by
  unfold setAdd
  split
  · constructor
    · exact fun h => Or.inl h
    · rintro (h | rfl)
      · exact h
      · assumption
  · simp

theorem setAdd_nodup {s : List String} (h : s.Nodup) (k : String) :
    (setAdd s k).Nodup := by
  unfold setAdd
  split
  · exact h
  · refine List.Nodup.append h (List.nodup_singleton k) ?_
    intro a ha hk
    rcases List.mem_singleton.mp hk with rfl
    exact (by assumption : a ∉ s) ha

theorem setAddFold_nodup (ks : List String) (init : List String)
    (h : init.Nodup) : (ks.foldl setAdd init).Nodup := by
  induction ks generalizing init with
  | nil => simpa
  | cons k ks ih => exact ih _ (setAdd_nodup h k)

theorem mem_setAddFold {a : String} (ks init : List String) :
    a ∈ ks.foldl setAdd init ↔ a ∈ init ∨ a ∈ ks := by
  induction ks generalizing init with
  | nil => simp
  | cons k ks ih =>
    rw [List.foldl_cons, ih, mem_setAdd]
    simp only [List.mem_cons]
    tauto

theorem setAddFold_toFinset (ks init : List String) :
    (ks.foldl setAdd init).toFinset = init.toFinset ∪ ks.toFinset := by
  ext a
  simp [mem_setAddFold]

/-! Generic counting folds. -/

theorem foldlProj {σ τ α : Type} (proj : σ → τ) (step : σ → α → σ)
    (stepG : τ → α → τ) (h : ∀ st c, proj (step st c) = stepG (proj st) c)
    (cs : List α) (st : σ) :
    proj (cs.foldl step st) = cs.foldl stepG (proj st) := by
  induction cs generalizing st with
  | nil => rfl
  | cons c cs ih => rw [List.foldl_cons, List.foldl_cons, ih, h]

theorem foldl_count {α : Type} (p : α → Bool) (cs : List α) (n : Nat) :
    cs.foldl (fun t c => t + (if p c then 1 else 0)) n = n + cs.countP p := by
  induction cs generalizing n with
  | nil => simp
  | cons c cs ih =>
    rw [List.foldl_cons, ih, List.countP_cons]
    by_cases h : p c
    · simp only [h, if_true]
      omega
    · simp [h]

theorem monthFold_apply (g : Commit → Option (Fin 12)) (cs : List Commit)
    (f0 : Fin 12 → Nat) (m : Fin 12) :
    (cs.foldl (monthStep g) f0) m
      = f0 m + cs.countP (fun c => g c = some m) := by
  induction cs generalizing f0 with
  | nil => simp
  | cons c cs ih =>
    rw [List.foldl_cons, ih, List.countP_cons]
    cases h : g c with
    | none => simp [monthStep, h]
    | some m' =>
      by_cases hm : m' = m
      · subst hm
        simp [monthStep, h, bump]
        omega
      · simp [monthStep, h, bump, hm, Ne.symm hm]

theorem tallyFold_get (p : Commit → Bool) (cs : List Commit)
    (t0 : List (String × Nat)) (k : String) :
    tallyGet (cs.foldl (tallyStep p) t0) k
      = tallyGet t0 k + cs.countP (fun c => p c && decide (authorId c = k)) := by
  induction cs generalizing t0 with
  | nil => simp
  | cons c cs ih =>
    rw [List.foldl_cons, ih, List.countP_cons]
    unfold tallyStep
    by_cases hp : p c
    · by_cases hk : authorId c = k
      · subst hk
        simp [hp, tallyGet_tallyInc_self]
        omega
      · simp [hp, hk, tallyGet_tallyInc_ne t0 hk]
    · simp [hp]

theorem tallyFold_sum (p : Commit → Bool) (cs : List Commit)
    (t0 : List (String × Nat)) :
    ((cs.foldl (tallyStep p) t0).map Prod.snd).sum
      = (t0.map Prod.snd).sum + cs.countP p := by
  induction cs generalizing t0 with
  | nil => simp
  | cons c cs ih =>
    rw [List.foldl_cons, ih, List.countP_cons]
    unfold tallyStep
    by_cases hp : p c
    · simp [hp, tallyInc_snd_sum]
      omega
    · simp [hp]

theorem tallyFold_keys (p : Commit → Bool) (cs : List Commit)
    (t0 : List (String × Nat)) :
    (cs.foldl (tallyStep p) t0).map Prod.fst
      = ((cs.filter p).map authorId).foldl setAdd (t0.map Prod.fst) := by
  induction cs generalizing t0 with
  | nil => rfl
  | cons c cs ih =>
    rw [List.foldl_cons, ih]
    by_cases hp : p c
    · rw [List.filter_cons_of_pos hp, List.map_cons, List.foldl_cons]
      have hst : (tallyStep p t0 c).map Prod.fst
          = setAdd (t0.map Prod.fst) (authorId c) := by
        simp [tallyStep, hp, tallyInc_keys]
      rw [hst]
    · rw [List.filter_cons_of_neg hp]
      have hst : tallyStep p t0 c = t0 := by simp [tallyStep, hp]
      rw [hst]

/-! Projections of the aggregator loop steps onto the generic folds. -/

theorem keptMonth_eq (y : Int) (c : Commit) :
    keptMonth y c = match commitWhen c with
      | none => none
      | some dt => if dt.year = y then some dt.month else none := rfl

theorem aggStep_total (y : Int) (st : AggSt) (c : Commit) :
    (aggStep y st c).total = st.total + (if keptIn y c then 1 else 0) := by
  unfold aggStep keptIn keptMonth
  cases h : commitWhen c with
  | none => simp
  | some dt =>
    by_cases hy : dt.year = y
    · by_cases hb : p0IsBot c <;> simp [hy, hb]
    · simp [hy]

theorem aggStep_monthly (y : Int) (st : AggSt) (c : Commit) :
    (aggStep y st c).monthly = monthStep (keptMonth y) st.monthly c := by
  unfold aggStep monthStep keptMonth
  cases h : commitWhen c with
  | none => simp
  | some dt =>
    by_cases hy : dt.year = y
    · by_cases hb : p0IsBot c <;> simp [hy, hb]
    · simp [hy]

theorem aggStep_byAuthor (y : Int) (st : AggSt) (c : Commit) :
    (aggStep y st c).byAuthor = tallyStep (humanKeptP0 y) st.byAuthor c := by
  unfold aggStep tallyStep humanKeptP0 keptIn keptMonth
  cases h : commitWhen c with
  | none => simp
  | some dt =>
    by_cases hy : dt.year = y
    · by_cases hb : p0IsBot c <;> simp [hy, hb]
    · simp [hy]

theorem insStep_monthlyAll (repo : String) (y : Int) (st : InsSt) (c : Commit) :
    (insStep repo y st c).monthlyAll = monthStep (keptMonth y) st.monthlyAll c := by
  unfold insStep monthStep keptMonth
  cases h : commitWhen c with
  | none => simp
  | some dt =>
    by_cases hy : dt.year = y
    · by_cases hb : insBot repo c <;> simp [hy, hb]
    · simp [hy]

theorem insStep_monthlyHuman (repo : String) (y : Int) (st : InsSt) (c : Commit) :
    (insStep repo y st c).monthlyHuman
      = monthStep (humanMonthIns repo y) st.monthlyHuman c := by
  unfold insStep monthStep humanMonthIns keptMonth
  cases h : commitWhen c with
  | none => by_cases hb : insBot repo c <;> simp [hb]
  | some dt =>
    by_cases hy : dt.year = y
    · by_cases hb : insBot repo c <;> simp [hy, hb]
    · by_cases hb : insBot repo c <;> simp [hy, hb]

theorem insStep_byAuthorAll (repo : String) (y : Int) (st : InsSt) (c : Commit) :
    (insStep repo y st c).byAuthorAll = tallyStep (keptIn y) st.byAuthorAll c := by
  unfold insStep tallyStep keptIn keptMonth
  cases h : commitWhen c with
  | none => simp
  | some dt =>
    by_cases hy : dt.year = y
    · by_cases hb : insBot repo c <;> simp [hy, hb]
    · simp [hy]

theorem insStep_byAuthorHuman (repo : String) (y : Int) (st : InsSt) (c : Commit) :
    (insStep repo y st c).byAuthorHuman
      = tallyStep (humanKeptIns repo y) st.byAuthorHuman c := by
  unfold insStep tallyStep humanKeptIns keptIn keptMonth
  cases h : commitWhen c with
  | none => simp
  | some dt =>
    by_cases hy : dt.year = y
    · by_cases hb : insBot repo c <;> simp [hy, hb]
    · simp [hy]

/-! Characterizations of the aggregator outputs as order-insensitive counts
(plus the insertion-ordered key structure for the tallies). -/

theorem aggregate_total (cs : List Commit) (mc : Nat) (y : Int) :
    (aggregate cs mc y).total = cs.countP (keptIn y) := by
  have h := foldlProj AggSt.total (aggStep y)
    (fun t c => t + (if keptIn y c then 1 else 0)) (aggStep_total y) cs
    { monthly := fun _ => 0, byAuthor := [], total := 0 }
  show (cs.foldl (aggStep y)
    { monthly := fun _ => 0, byAuthor := [], total := 0 }).total = _
  rw [h, foldl_count]
  simp

theorem aggregate_monthlyFun (cs : List Commit) (mc : Nat) (y : Int) :
    (aggregate cs mc y).monthly
      = List.ofFn (fun m => cs.countP (fun c => keptMonth y c = some m)) := by
  have h := foldlProj AggSt.monthly (aggStep y) (monthStep (keptMonth y))
    (aggStep_monthly y) cs { monthly := fun _ => 0, byAuthor := [], total := 0 }
  show List.ofFn (cs.foldl (aggStep y)
    { monthly := fun _ => 0, byAuthor := [], total := 0 }).monthly = _
  rw [h]
  exact congrArg List.ofFn (funext fun m => by rw [monthFold_apply]; simp)

theorem aggregate_byAuthor (cs : List Commit) (mc : Nat) (y : Int) :
    (cs.foldl (aggStep y)
        { monthly := fun _ => 0, byAuthor := [], total := 0 }).byAuthor
      = tallyFold (humanKeptP0 y) cs := by
  exact foldlProj AggSt.byAuthor (aggStep y) (tallyStep (humanKeptP0 y))
    (aggStep_byAuthor y) cs _

theorem tallyFold_keys_firstSeen (p : Commit → Bool) (cs : List Commit) :
    (tallyFold p cs).map Prod.fst = firstSeen ((cs.filter p).map authorId) := by
  unfold tallyFold firstSeen
  rw [tallyFold_keys]
  rfl

theorem tallyFold_nodup_keys (p : Commit → Bool) (cs : List Commit) :
    ((tallyFold p cs).map Prod.fst).Nodup := by
  rw [tallyFold_keys_firstSeen]
  exact setAddFold_nodup _ _ List.nodup_nil

theorem tallyFold_length (p : Commit → Bool) (cs : List Commit) :
    (tallyFold p cs).length = ((cs.filter p).map authorId).toFinset.card := by
  have h1 : (tallyFold p cs).length = ((tallyFold p cs).map Prod.fst).length := by
    rw [List.length_map]
  rw [h1, ← List.toFinset_card_of_nodup (tallyFold_nodup_keys p cs),
    tallyFold_keys_firstSeen]
  unfold firstSeen
  rw [setAddFold_toFinset]
  simp

theorem aggregate_unique (cs : List Commit) (mc : Nat) (y : Int) :
    (aggregate cs mc y).unique = (contribKeys cs y).toFinset.card := by
  show (cs.foldl (aggStep y) _).byAuthor.length = _
  rw [aggregate_byAuthor cs mc y, tallyFold_length]
  rfl

theorem aggregate_avg (cs : List Commit) (mc : Nat) (y : Int) :
    (aggregate cs mc y).avg = round2 (jsDivNat (cs.countP (keptIn y)) mc) := by
  have h := aggregate_total cs mc y
  unfold aggregate at h ⊢
  rw [← h]

theorem aggregate_top (cs : List Commit) (mc : Nat) (y : Int) :
    (aggregate cs mc y).top
      = ((tallyFold (humanKeptP0 y) cs).mergeSort
          fun a b => decide (b.2 ≤ a.2)).take 5 := by
  show ((cs.foldl (aggStep y) _).byAuthor.mergeSort _).take 5 = _
  rw [aggregate_byAuthor cs mc y]

theorem insInit_byAuthorAll (cs : List Commit) (repo : String) (y : Int) :
    (cs.foldl (insStep repo y)
        { monthlyAll := fun _ => 0, monthlyHuman := fun _ => 0,
          byAuthorAll := [], byAuthorHuman := [] }).byAuthorAll
      = tallyFold (keptIn y) cs :=
  foldlProj InsSt.byAuthorAll (insStep repo y) (tallyStep (keptIn y))
    (insStep_byAuthorAll repo y) cs _

theorem insInit_byAuthorHuman (cs : List Commit) (repo : String) (y : Int) :
    (cs.foldl (insStep repo y)
        { monthlyAll := fun _ => 0, monthlyHuman := fun _ => 0,
          byAuthorAll := [], byAuthorHuman := [] }).byAuthorHuman
      = tallyFold (humanKeptIns repo y) cs :=
  foldlProj InsSt.byAuthorHuman (insStep repo y) (tallyStep (humanKeptIns repo y))
    (insStep_byAuthorHuman repo y) cs _

theorem ins_all_total (cs : List Commit) (repo : String) (mc : Nat) (y : Int) :
    (aggregateInsightsStyle cs repo mc y).all.total = cs.countP (keptIn y) := by
  show ((cs.foldl (insStep repo y) _).byAuthorAll.map Prod.snd).sum = _
  rw [insInit_byAuthorAll]
  unfold tallyFold
  rw [tallyFold_sum]
  simp

theorem ins_human_total (cs : List Commit) (repo : String) (mc : Nat) (y : Int) :
    (aggregateInsightsStyle cs repo mc y).human.total
      = cs.countP (humanKeptIns repo y) := by
  show ((cs.foldl (insStep repo y) _).byAuthorHuman.map Prod.snd).sum = _
  rw [insInit_byAuthorHuman]
  unfold tallyFold
  rw [tallyFold_sum]
  simp

theorem ins_all_monthly (cs : List Commit) (repo : String) (mc : Nat) (y : Int) :
    (aggregateInsightsStyle cs repo mc y).all.monthly
      = List.ofFn (fun m => cs.countP fun c => keptMonth y c = some m) := by
  show List.ofFn (cs.foldl (insStep repo y) _).monthlyAll = _
  have h := foldlProj InsSt.monthlyAll (insStep repo y) (monthStep (keptMonth y))
    (insStep_monthlyAll repo y) cs
    { monthlyAll := fun _ => 0, monthlyHuman := fun _ => 0,
      byAuthorAll := [], byAuthorHuman := [] }
  rw [h]
  exact congrArg List.ofFn (funext fun m => by rw [monthFold_apply]; simp)

theorem ins_human_monthly (cs : List Commit) (repo : String) (mc : Nat) (y : Int) :
    (aggregateInsightsStyle cs repo mc y).human.monthly
      = List.ofFn (fun m => cs.countP fun c => humanMonthIns repo y c = some m) := by
  show List.ofFn (cs.foldl (insStep repo y) _).monthlyHuman = _
  have h := foldlProj InsSt.monthlyHuman (insStep repo y)
    (monthStep (humanMonthIns repo y)) (insStep_monthlyHuman repo y) cs
    { monthlyAll := fun _ => 0, monthlyHuman := fun _ => 0,
      byAuthorAll := [], byAuthorHuman := [] }
  rw [h]
  exact congrArg List.ofFn (funext fun m => by rw [monthFold_apply]; simp)

theorem ins_all_unique (cs : List Commit) (repo : String) (mc : Nat) (y : Int) :
    (aggregateInsightsStyle cs repo mc y).all.unique
      = ((cs.filter (keptIn y)).map authorId).toFinset.card := by
  show (cs.foldl (insStep repo y) _).byAuthorAll.length = _
  rw [insInit_byAuthorAll, tallyFold_length]

theorem ins_human_unique (cs : List Commit) (repo : String) (mc : Nat) (y : Int) :
    (aggregateInsightsStyle cs repo mc y).human.unique
      = ((cs.filter (humanKeptIns repo y)).map authorId).toFinset.card := by
  show (cs.foldl (insStep repo y) _).byAuthorHuman.length = _
  rw [insInit_byAuthorHuman, tallyFold_length]

theorem ins_all_avg (cs : List Commit) (repo : String) (mc : Nat) (y : Int) :
    (aggregateInsightsStyle cs repo mc y).all.avg
      = round2 (jsDivNat (cs.countP (keptIn y)) mc) := by
  have h := ins_all_total cs repo mc y
  show round2 (jsDivNat ((cs.foldl (insStep repo y) _).byAuthorAll.map Prod.snd).sum mc) = _
  rw [show ((cs.foldl (insStep repo y) _).byAuthorAll.map Prod.snd).sum
    = (aggregateInsightsStyle cs repo mc y).all.total from rfl, h]

theorem ins_human_avg (cs : List Commit) (repo : String) (mc : Nat) (y : Int) :
    (aggregateInsightsStyle cs repo mc y).human.avg
      = round2 (jsDivNat (cs.countP (humanKeptIns repo y)) mc) := by
  have h := ins_human_total cs repo mc y
  show round2 (jsDivNat ((cs.foldl (insStep repo y) _).byAuthorHuman.map Prod.snd).sum mc) = _
  rw [show ((cs.foldl (insStep repo y) _).byAuthorHuman.map Prod.snd).sum
    = (aggregateInsightsStyle cs repo mc y).human.total from rfl, h]

theorem ins_human_top (cs : List Commit) (repo : String) (mc : Nat) (y : Int) :
    (aggregateInsightsStyle cs repo mc y).human.top
      = ((tallyFold (humanKeptIns repo y) cs).mergeSort
          fun a b => decide (b.2 ≤ a.2)).take 5 := by
  show ((cs.foldl (insStep repo y) _).byAuthorHuman.mergeSort _).take 5 = _
  rw [insInit_byAuthorHuman]

/-! Characterizations of `aggregateYear`. -/

theorem aggregateYear_total (cs : List Commit) (y : Int) (now : UTCDate) :
    (aggregateYear cs y now).totalCommits
      = (cs.filter (hasAuthorDateIn y)).length := rfl

theorem aggY_month_step :
    (fun (f : Fin 12 → Nat) (c : Commit) =>
      match c.authorDate with
      | some d => bump f d.month
      | none => f)
      = monthStep yearMonth := by
  funext f c
  cases h : c.authorDate <;> simp [monthStep, yearMonth, h]

theorem aggregateYear_monthly (cs : List Commit) (y : Int) (now : UTCDate) :
    (aggregateYear cs y now).monthly
      = List.ofFn (fun m => (cs.filter (hasAuthorDateIn y)).countP
          fun c => yearMonth c = some m) := by
  show List.ofFn ((cs.filter (hasAuthorDateIn y)).foldl
    (fun f c => match c.authorDate with
      | some d => bump f d.month
      | none => f) (fun _ => 0)) = _
  rw [aggY_month_step]
  exact congrArg List.ofFn (funext fun m => by rw [monthFold_apply]; simp)

theorem foldl_botSetAdd (cs : List Commit) (s0 : List String) :
    cs.foldl (fun s c => if isBotCommit c then s else setAdd s (authorId c)) s0
      = ((cs.filter fun c => !isBotCommit c).map authorId).foldl setAdd s0 := by
  induction cs generalizing s0 with
  | nil => rfl
  | cons c cs ih =>
    by_cases h : isBotCommit c <;> simp [h, ih]

theorem aggregateYear_unique (cs : List Commit) (y : Int) (now : UTCDate) :
    (aggregateYear cs y now).uniqueDevs
      = (((cs.filter (hasAuthorDateIn y)).filter fun c => !isBotCommit c).map
          authorId).toFinset.card := by
  show ((cs.filter (hasAuthorDateIn y)).foldl
    (fun s c => if isBotCommit c then s else setAdd s (authorId c)) []).length = _
  rw [foldl_botSetAdd]
  rw [← List.toFinset_card_of_nodup (setAddFold_nodup _ _ List.nodup_nil),
    setAddFold_toFinset]
  simp

theorem aggY_counts_step :
    (fun (m : List (String × Nat)) (c : Commit) =>
      if isBotCommit c then m else tallyInc m (authorId c))
      = tallyStep fun c => !isBotCommit c := by
  funext m c
  by_cases h : isBotCommit c <;> simp [tallyStep, h]

theorem aggregateYear_top (cs : List Commit) (y : Int) (now : UTCDate) :
    (aggregateYear cs y now).top
      = ((tallyFold (fun c => !isBotCommit c) (cs.filter (hasAuthorDateIn y))).mergeSort
          fun a b => decide (b.2 ≤ a.2)).take 5 := by
  show (((cs.filter (hasAuthorDateIn y)).foldl
    (fun m c => if isBotCommit c then m else tallyInc m (authorId c)) []).mergeSort _).take 5 = _
  rw [aggY_counts_step]
  rfl

theorem aggregateYear_avg (cs : List Commit) (y : Int) (now : UTCDate) :
    (aggregateYear cs y now).avgPerMonth
      = round2 (jsDivNat (cs.filter (hasAuthorDateIn y)).length
          (if monthsElapsedInYear y now = 0 then 12 else monthsElapsedInYear y now)) := by
  show (if (if monthsElapsedInYear y now = 0 then 12
      else monthsElapsedInYear y now) = 0 then JsNum.num 0
    else round2 (jsDivNat (cs.filter (hasAuthorDateIn y)).length _)) = _
  by_cases h : monthsElapsedInYear y now = 0 <;> simp [h]

/-! Partition of a count over the twelve month buckets. -/

theorem countP_partition {α : Type} (g : α → Option (Fin 12)) (l : List α) :
    (∑ m : Fin 12, l.countP fun c => g c = some m)
      = l.countP fun c => (g c).isSome := by
  induction l with
  | nil => simp
  | cons c cs ih =>
    simp only [List.countP_cons]
    rw [Finset.sum_add_distrib, ih]
    cases h : g c with
    | none => simp [h]
    | some j => simp [h]

/-! Commits without a usable date are ignored by every loop step. -/

theorem aggStep_noDate (y : Int) (st : AggSt) {c : Commit}
    (h : commitWhen c = none) : aggStep y st c = st := by
  unfold aggStep
  rw [h]

theorem insStep_noDate (repo : String) (y : Int) (st : InsSt) {c : Commit}
    (h : commitWhen c = none) : insStep repo y st c = st := by
  unfold insStep
  rw [h]

/-! Key membership and ordering of the tally. -/

theorem tallyFold_mem_keys {k : String} (p : Commit → Bool) (cs : List Commit) :
    k ∈ (tallyFold p cs).map Prod.fst ↔ k ∈ (cs.filter p).map authorId := by
  rw [tallyFold_keys_firstSeen]
  unfold firstSeen
  rw [mem_setAddFold]
  simp

theorem firstSeen_pairwise_indexOf (ks : List String) :
    (firstSeen ks).Pairwise fun a b => ks.indexOf a < ks.indexOf b := by
  unfold firstSeen
  induction ks using List.reverseRecOn with
  | nil => simp
  | append_singleton ks k ih =>
    rw [List.foldl_append, List.foldl_cons, List.foldl_nil]
    have hmem : ∀ a ∈ ks.foldl setAdd [], a ∈ ks := by
      intro a ha
      rcases (mem_setAddFold ks []).mp ha with h | h
      · cases h
      · exact h
    have hidx : ∀ a ∈ ks.foldl setAdd [], (ks ++ [k]).indexOf a = ks.indexOf a :=
      fun a ha => List.indexOf_append_of_mem (hmem a ha)
    by_cases hk : k ∈ ks.foldl setAdd []
    · rw [show setAdd (ks.foldl setAdd []) k = ks.foldl setAdd [] from by
        simp [setAdd, hk]]
      refine List.Pairwise.imp_of_mem ?_ ih
      intro a b ha hb hab
      rw [hidx a ha, hidx b hb]
      exact hab
    · rw [show setAdd (ks.foldl setAdd []) k = ks.foldl setAdd [] ++ [k] from by
        simp [setAdd, hk]]
      rw [List.pairwise_append]
      refine ⟨List.Pairwise.imp_of_mem ?_ ih, by simp, ?_⟩
      · intro a b ha hb hab
        rw [hidx a ha, hidx b hb]
        exact hab
      · intro a ha b hb
        rcases List.mem_singleton.mp hb with rfl
        have hk' : b ∉ ks := fun h => hk ((mem_setAddFold ks []).mpr (Or.inr h))
        rw [hidx a ha, List.indexOf_append_of_not_mem hk']
        have h1 : ks.indexOf a < ks.length := List.indexOf_lt_length.mpr (hmem a ha)
        have h2 : List.indexOf b [b] = 0 := List.indexOf_cons_self b []
        omega

/-! Generic order facts about pairs in lists. -/

theorem pair_sublist_of_mem {α : Type} {a b : α} {l : List α}
    (ha : a ∈ l) (hb : b ∈ l) (hne : a ≠ b) :
    [a, b].Sublist l ∨ [b, a].Sublist l := by
  induction l with
  | nil => cases ha
  | cons x l ih =>
    by_cases hax : a = x
    · subst hax
      have hb' : b ∈ l := by
        rcases List.mem_cons.mp hb with h | h
        · exact absurd h.symm hne
        · exact h
      exact Or.inl (List.Sublist.cons₂ _ (List.singleton_sublist.mpr hb'))
    · by_cases hbx : b = x
      · subst hbx
        have ha' : a ∈ l := by
          rcases List.mem_cons.mp ha with h | h
          · exact absurd h hax
          · exact h
        exact Or.inr (List.Sublist.cons₂ _ (List.singleton_sublist.mpr ha'))
      · have ha' : a ∈ l := by
          rcases List.mem_cons.mp ha with h | h
          · exact absurd h hax
          · exact h
        have hb' : b ∈ l := by
          rcases List.mem_cons.mp hb with h | h
          · exact absurd h hbx
          · exact h
        rcases ih ha' hb' with h | h
        · exact Or.inl (h.cons x)
        · exact Or.inr (h.cons x)

theorem sublist_pair_index {α : Type} {a b : α} {l : List α}
    (h : [a, b].Sublist l) :
    ∃ i j, ∃ (hi : i < l.length) (hj : j < l.length),
      i < j ∧ l[i] = a ∧ l[j] = b := by
  induction l with
  | nil => simp at h
  | cons x l ih =>
    cases h with
    | cons _ h' =>
      obtain ⟨i, j, hi, hj, hij, hia, hjb⟩ := ih h'
      exact ⟨i + 1, j + 1, by simpa using hi, by simpa using hj, by omega,
        by simpa using hia, by simpa using hjb⟩
    | cons₂ _ h' =>
      have hb : b ∈ l := List.singleton_sublist.mp h'
      obtain ⟨j, hj, hjb⟩ := List.mem_iff_getElem.mp hb
      exact ⟨0, j + 1, by simp, by simpa using hj, Nat.succ_pos j, rfl,
        by simpa using hjb⟩

/-! The pagination loop on fully successful and on failing chains. -/

theorem ghPaginated_ok (world : Nat → PageResp) {url : Option Nat}
    {us : List Nat} (h : Follows world url us) :
    ∀ fuel, us.length ≤ fuel →
      ghPaginated world fuel url
        = Except.ok (us.flatMap fun u => (world u).items) := by
  induction h with
  | nil =>
    intro fuel _
    cases fuel <;> rfl
  | @cons u us2 hok hnext ih =>
    intro fuel hf
    cases fuel with
    | zero => simp at hf
    | succ n =>
      have hn : us2.length ≤ n := by simpa using hf
      simp only [ghPaginated, hok, if_true]
      rw [ih n hn]
      simp

theorem ghPaginated_error (world : Nat → PageResp) {url : Option Nat}
    {v n : Nat} (h : FailsAt world url v n) :
    ∀ fuel, n < fuel →
      ghPaginated world fuel url
        = Except.error (GhError.upstream (world v).status (world v).body) := by
  induction h with
  | here hbad =>
    intro fuel hf
    cases fuel with
    | zero => omega
    | succ m => simp [ghPaginated, hbad]
  | @step u v2 n2 hok hnext ih =>
    intro fuel hf
    cases fuel with
    | zero => omega
    | succ m =>
      have hm : n2 < m := by omega
      simp only [ghPaginated, hok, if_true]
      rw [ih m hm]

/-! Small bridges used by the claim theorems. -/

theorem humanMonthIns_isSome (repo : String) (y : Int) (c : Commit) :
    (humanMonthIns repo y c).isSome = humanKeptIns repo y c := by
  unfold humanMonthIns humanKeptIns keptIn
  by_cases h : insBot repo c <;> simp [h]

theorem yearMonth_isSome_of_has {y : Int} {c : Commit}
    (h : hasAuthorDateIn y c = true) : (yearMonth c).isSome = true := by
  unfold hasAuthorDateIn at h
  unfold yearMonth
  cases hd : c.authorDate
  · rw [hd] at h
    simp at h
  · simp [hd]

theorem getD_ofFn (f : Fin 12 → Nat) (m : Fin 12) :
    (List.ofFn f).getD m.val 0 = f m := by
  have h : m.val < (List.ofFn f).length := by simp [m.isLt]
  rw [List.getD_eq_getElem?_getD, List.getElem?_eq_getElem h,
    Option.getD_some, List.getElem_ofFn]

theorem repoDeny_ne_empty {slug login : String} (h : login ∈ repoDeny slug) :
    login ≠ "" := by
  unfold repoDeny at h
  split at h
  · simp only [List.mem_cons, List.not_mem_nil, or_false] at h
    rcases h with rfl | rfl <;> decide
  · split at h
    · simp only [List.mem_cons, List.not_mem_nil, or_false] at h
      rcases h with rfl | rfl | rfl | rfl | rfl <;> decide
    · cases h

/-- C1: in every YearAggregate produced by the three aggregation functions —
part_000 `aggregate`, both the all-identities and the human view of
`aggregateInsightsStyle`, and `aggregateYear` — the total commit count
equals the sum of the twelve monthly bucket counts. -/
theorem c1_total_eq_monthly_sum (cs : List Commit) (repo : String) (mc : Nat)
    (y : Int) (now : UTCDate) :
    (aggregate cs mc y).total = (aggregate cs mc y).monthly.sum
    ∧ (aggregateInsightsStyle cs repo mc y).all.total
        = (aggregateInsightsStyle cs repo mc y).all.monthly.sum
    ∧ (aggregateInsightsStyle cs repo mc y).human.total
        = (aggregateInsightsStyle cs repo mc y).human.monthly.sum
    ∧ (aggregateYear cs y now).totalCommits
        = (aggregateYear cs y now).monthly.sum := by
  refine ⟨?_, ?_, ?_, ?_⟩
  · rw [aggregate_total, aggregate_monthlyFun, List.sum_ofFn,
      countP_partition (keptMonth y)]
    rfl
  · rw [ins_all_total, ins_all_monthly, List.sum_ofFn,
      countP_partition (keptMonth y)]
    rfl
  · rw [ins_human_total, ins_human_monthly, List.sum_ofFn,
      countP_partition (humanMonthIns repo y)]
    refine List.countP_congr fun c _ => ?_
    rw [humanMonthIns_isSome]
  · rw [aggregateYear_total, aggregateYear_monthly, List.sum_ofFn,
      countP_partition yearMonth]
    refine (List.countP_eq_length.mpr fun c hc => ?_).symm
    exact yearMonth_isSome_of_has (List.mem_filter.mp hc).2

/-- C10: a commit record with neither an author date nor a committer date is
silently skipped by all three aggregation functions: inserting it anywhere
in the input leaves every output unchanged, and no error is possible (the
aggregators are total functions). -/
theorem c10_dateless_skipped (l₁ l₂ : List Commit) (c : Commit) (repo : String)
    (mc : Nat) (y : Int) (now : UTCDate)
    (ha : c.authorDate = none) (hc : c.committerDate = none) :
    aggregate (l₁ ++ c :: l₂) mc y = aggregate (l₁ ++ l₂) mc y
    ∧ aggregateInsightsStyle (l₁ ++ c :: l₂) repo mc y
        = aggregateInsightsStyle (l₁ ++ l₂) repo mc y
    ∧ aggregateYear (l₁ ++ c :: l₂) y now = aggregateYear (l₁ ++ l₂) y now := by
  have hw : commitWhen c = none := by
    unfold commitWhen
    rw [ha, hc]
  refine ⟨?_, ?_, ?_⟩
  · have key : ∀ st : AggSt,
        (l₁ ++ c :: l₂).foldl (aggStep y) st = (l₁ ++ l₂).foldl (aggStep y) st := by
      intro st
      rw [List.foldl_append, List.foldl_append, List.foldl_cons,
        aggStep_noDate y _ hw]
    simp only [aggregate]
    rw [key]
  · have key : ∀ st : InsSt,
        (l₁ ++ c :: l₂).foldl (insStep repo y) st
          = (l₁ ++ l₂).foldl (insStep repo y) st := by
      intro st
      rw [List.foldl_append, List.foldl_append, List.foldl_cons,
        insStep_noDate repo y _ hw]
    simp only [aggregateInsightsStyle]
    rw [key]
  · have hkc : hasAuthorDateIn y c = false := by
      unfold hasAuthorDateIn
      rw [ha]
    have hfilter : (l₁ ++ c :: l₂).filter (hasAuthorDateIn y)
        = (l₁ ++ l₂).filter (hasAuthorDateIn y) := by
      simp [List.filter_append, List.filter_cons, hkc]
    simp only [aggregateYear]
    rw [hfilter]

/-- C10 witness: a concrete dateless commit dropped from the middle of a
two-commit input changes nothing. -/
theorem c10_witness :
    aggregate [caAlice, cNoDate, cbBob] 12 2024 = aggregate [caAlice, cbBob] 12 2024
    ∧ aggregateInsightsStyle [caAlice, cNoDate, cbBob] "apache/jmeter" 12 2024
        = aggregateInsightsStyle [caAlice, cbBob] "apache/jmeter" 12 2024
    ∧ aggregateYear [caAlice, cNoDate, cbBob] 2024 jan24
        = aggregateYear [caAlice, cbBob] 2024 jan24 :=
  c10_dateless_skipped [caAlice] [cbBob] cNoDate "apache/jmeter" 12 2024 jan24
    rfl rfl

/-- C3 counterexample: the aggregators accept no countMerges argument and a
commit with two parents is not discarded — it is counted in totalCommits. -/
theorem c3_counterexample :
    cMerge.parents = 2 ∧ (aggregate [cMerge] 12 2024).total = 1 := by
  constructor
  · rfl
  · decide

/-- C3 (amended): the aggregation functions have no countMerges mode and
never discard merge commits: the parent count of every commit is ignored
entirely, so changing parent counts arbitrarily leaves all outputs of all
three aggregation functions unchanged. -/
theorem c3_amended_parents_ignored (cs : List Commit) (repo : String)
    (mc : Nat) (y : Int) (now : UTCDate) (f : Commit → Nat) :
    aggregate (cs.map fun c => { c with parents := f c }) mc y
        = aggregate cs mc y
    ∧ aggregateInsightsStyle (cs.map fun c => { c with parents := f c }) repo mc y
        = aggregateInsightsStyle cs repo mc y
    ∧ aggregateYear (cs.map fun c => { c with parents := f c }) y now
        = aggregateYear cs y now := by
  refine ⟨?_, ?_, ?_⟩
  · simp only [aggregate]
    rw [List.foldl_map]
    rfl
  · simp only [aggregateInsightsStyle]
    rw [List.foldl_map]
    rfl
  · simp only [aggregateYear]
    rw [List.filter_map, List.length_map, List.foldl_map, List.foldl_map,
      List.foldl_map]
    rfl

/-- C8 counterexample: invoked with monthsCount zero on a nonempty window the
aggregator does not fail fast; it returns a YearAggregate whose average is
Infinity. -/
theorem c8_counterexample : (aggregate [caAlice] 0 2024).avg = JsNum.inf := by
  decide

/-- C8 (amended): no monthsCounted validation exists.  With a zero divisor,
`aggregate` and `aggregateInsightsStyle` return an aggregate whose average
is non-finite (NaN for an empty window, Infinity otherwise) instead of
failing fast; `aggregateYear` never divides by zero because it silently
replaces a zero months-elapsed divisor by 12, so its average is always
finite. -/
theorem c8_amended_zero_months (cs : List Commit) (repo : String) (y : Int)
    (now : UTCDate) :
    (aggregate cs 0 y).avg.isFinite = false
    ∧ (aggregateInsightsStyle cs repo 0 y).human.avg.isFinite = false
    ∧ (aggregateInsightsStyle cs repo 0 y).all.avg.isFinite = false
    ∧ (aggregateYear cs y now).avgPerMonth.isFinite = true := by
  refine ⟨?_, ?_, ?_, ?_⟩
  · rw [aggregate_avg]
    by_cases h : cs.countP (keptIn y) = 0 <;>
      simp [h, jsDivNat, round2, JsNum.isFinite]
  · rw [ins_human_avg]
    by_cases h : cs.countP (humanKeptIns repo y) = 0 <;>
      simp [h, jsDivNat, round2, JsNum.isFinite]
  · rw [ins_all_avg]
    by_cases h : cs.countP (keptIn y) = 0 <;>
      simp [h, jsDivNat, round2, JsNum.isFinite]
  · rw [aggregateYear_avg]
    by_cases h : monthsElapsedInYear y now = 0 <;>
      simp [h, jsDivNat, round2, JsNum.isFinite]

/-- C4: the resolved AuthorIdentity key is the login when non-empty, else the
email when non-empty, else the display name when non-empty, else the literal
"unknown"; and two commits with the same resolved key are tallied as one
contributor. -/
theorem c4_author_identity (c₁ c₂ : Commit) (mc : Nat) (y : Int)
    (h₁ : keptIn y c₁ = true) (h₂ : keptIn y c₂ = true)
    (hb₁ : p0IsBot c₁ = false) (hb₂ : p0IsBot c₂ = false)
    (hk : authorId c₁ = authorId c₂) :
    (∀ c : Commit,
      (c.login ≠ "" → authorId c = c.login)
      ∧ (c.login = "" → c.email ≠ "" → authorId c = c.email)
      ∧ (c.login = "" → c.email = "" → c.name ≠ "" → authorId c = c.name)
      ∧ (c.login = "" → c.email = "" → c.name = "" → authorId c = "unknown"))
    ∧ (aggregate [c₁, c₂] mc y).unique = 1 := by
  constructor
  · intro c
    refine ⟨fun h => ?_, fun h1 h2 => ?_, fun h1 h2 h3 => ?_, fun h1 h2 h3 => ?_⟩
    · simp [authorId, h]
    · simp [authorId, h1, h2]
    · simp [authorId, h1, h2, h3]
    · simp [authorId, h1, h2, h3]
  · rw [aggregate_unique]
    have hf : [c₁, c₂].filter (humanKeptP0 y) = [c₁, c₂] := by
      simp [humanKeptP0, h₁, h₂, hb₁, hb₂]
    unfold contribKeys
    rw [hf]
    simp [hk]

/-- C4 witness: two concrete commits sharing the login alice but with
different names and emails count as one contributor. -/
theorem c4_witness : (aggregate [caAlice, caAlice2] 12 2024).unique = 1 :=
  (c4_author_identity caAlice caAlice2 12 2024 (by decide) (by decide)
    (by decide) (by decide) (by decide)).2

/-- C5: a login on the configured per-repository deny-list is classified as a
bot regardless of the generic patterns; an identity matching no generic
pattern (tested, as the classifier does, against the space-joined truthy
fields) and no deny-list entry is classified human and is counted in the
human contributor tally. -/
theorem c5_bot_classifier (slug₁ login₁ name₁ email₁ : String)
    (slug₂ login₂ name₂ email₂ : String) (mc : Nat) (y : Int) (dt : UTCDate)
    (hdeny : login₁ ∈ repoDeny slug₁)
    (hpat : botPatternsUpd (joinTruthy [login₂, name₂, email₂]) = false)
    (hdeny₂ : login₂ ∉ repoDeny slug₂)
    (hy : dt.year = y) :
    looksLikeBot slug₁ login₁ name₁ email₁ = true
    ∧ looksLikeBot slug₂ login₂ name₂ email₂ = false
    ∧ (aggregateInsightsStyle [mkCommit login₂ name₂ email₂ (some dt)]
        slug₂ mc y).human.unique = 1 := by
  have hfalse : looksLikeBot slug₂ login₂ name₂ email₂ = false := by
    unfold looksLikeBot
    rw [if_neg fun hcon => hdeny₂ hcon.2]
    exact hpat
  refine ⟨?_, hfalse, ?_⟩
  · unfold looksLikeBot
    rw [if_pos ⟨repoDeny_ne_empty hdeny, hdeny⟩]
  · rw [ins_human_unique]
    have hkm : humanKeptIns slug₂ y (mkCommit login₂ name₂ email₂ (some dt))
        = true := by
      unfold humanKeptIns keptIn keptMonth commitWhen insBot mkCommit
      simp [hy, hfalse]
    rw [show [mkCommit login₂ name₂ email₂ (some dt)].filter
        (humanKeptIns slug₂ y) = [mkCommit login₂ name₂ email₂ (some dt)] from by
      simp [hkm]]
    simp

/-- C5 witness: the deny-listed login playwrightmachine (which matches no
generic pattern) is a bot for microsoft/playwright, and a concrete plain
identity is human and tallied. -/
theorem c5_witness :
    looksLikeBot "microsoft/playwright" "playwrightmachine" "PM" "pm@example.com"
        = true
    ∧ looksLikeBot "apache/jmeter" "alice" "Alice Smith" "alice@example.com"
        = false
    ∧ (aggregateInsightsStyle
        [mkCommit "alice" "Alice Smith" "alice@example.com" (some jan24)]
        "apache/jmeter" 10 2024).human.unique = 1 := by
  have h := c5_bot_classifier "microsoft/playwright" "playwrightmachine" "PM"
    "pm@example.com" "apache/jmeter" "alice" "Alice Smith" "alice@example.com"
    10 2024 jan24 (by decide) (by decide) (by decide) (by decide)
  exact h

/-- C6: a commit whose author the classifier marks as a bot is still counted
in the all-activity totals (totalCommits and its monthly bucket in
part_000 `aggregate`; the all view of `aggregateInsightsStyle`) but leaves
the per-author tally — and hence uniqueHumanContributors, topContributors,
and the human-view total — unchanged, so the two views may diverge. -/
theorem c6_bot_counted_in_totals (l : List Commit) (c : Commit) (repo : String)
    (mc : Nat) (y : Int) (m : Fin 12)
    (hkm : keptMonth y c = some m)
    (hb1 : p0IsBot c = true) (hb2 : insBot repo c = true) :
    (aggregate (l ++ [c]) mc y).total = (aggregate l mc y).total + 1
    ∧ (∀ m' : Fin 12, (aggregate (l ++ [c]) mc y).monthly.getD m'.val 0
        = (aggregate l mc y).monthly.getD m'.val 0 + (if m' = m then 1 else 0))
    ∧ (aggregate (l ++ [c]) mc y).unique = (aggregate l mc y).unique
    ∧ (aggregate (l ++ [c]) mc y).top = (aggregate l mc y).top
    ∧ (aggregateInsightsStyle (l ++ [c]) repo mc y).all.total
        = (aggregateInsightsStyle l repo mc y).all.total + 1
    ∧ (∀ m' : Fin 12,
        (aggregateInsightsStyle (l ++ [c]) repo mc y).all.monthly.getD m'.val 0
          = (aggregateInsightsStyle l repo mc y).all.monthly.getD m'.val 0
            + (if m' = m then 1 else 0))
    ∧ (aggregateInsightsStyle (l ++ [c]) repo mc y).human.total
        = (aggregateInsightsStyle l repo mc y).human.total
    ∧ (aggregateInsightsStyle (l ++ [c]) repo mc y).human.unique
        = (aggregateInsightsStyle l repo mc y).human.unique
    ∧ (aggregateInsightsStyle (l ++ [c]) repo mc y).human.top
        = (aggregateInsightsStyle l repo mc y).human.top := by
  have hkept : keptIn y c = true := by
    unfold keptIn
    rw [hkm]
    rfl
  have hh0 : humanKeptP0 y c = false := by
    unfold humanKeptP0
    simp [hb1]
  have hhIns : humanKeptIns repo y c = false := by
    unfold humanKeptIns
    simp [hb2]
  have htf : tallyFold (humanKeptP0 y) (l ++ [c]) = tallyFold (humanKeptP0 y) l := by
    unfold tallyFold
    rw [List.foldl_append, List.foldl_cons, List.foldl_nil]
    simp [tallyStep, hh0]
  have htfi : tallyFold (humanKeptIns repo y) (l ++ [c])
      = tallyFold (humanKeptIns repo y) l := by
    unfold tallyFold
    rw [List.foldl_append, List.foldl_cons, List.foldl_nil]
    simp [tallyStep, hhIns]
  refine ⟨?_, ?_, ?_, ?_, ?_, ?_, ?_, ?_, ?_⟩
  · rw [aggregate_total, aggregate_total, List.countP_append]
    simp [hkept]
  · intro m'
    rw [aggregate_monthlyFun, aggregate_monthlyFun, getD_ofFn, getD_ofFn,
      List.countP_append]
    simp only [List.countP_cons, List.countP_nil, hkm]
    by_cases hmm : m' = m
    · subst hmm
      simp
    · simp [hmm, Ne.symm hmm]
  · rw [aggregate_unique, aggregate_unique]
    unfold contribKeys
    rw [List.filter_append]
    simp [hh0]
  · rw [aggregate_top, aggregate_top, htf]
  · rw [ins_all_total, ins_all_total, List.countP_append]
    simp [hkept]
  · intro m'
    rw [ins_all_monthly, ins_all_monthly, getD_ofFn, getD_ofFn,
      List.countP_append]
    simp only [List.countP_cons, List.countP_nil, hkm]
    by_cases hmm : m' = m
    · subst hmm
      simp
    · simp [hmm, Ne.symm hmm]
  · rw [ins_human_total, ins_human_total, List.countP_append]
    simp [hhIns]
  · rw [ins_human_unique, ins_human_unique, List.filter_append]
    simp [hhIns]
  · rw [ins_human_top, ins_human_top, htfi]

/-- C6 witness: appending a concrete dependabot commit raises the totals by
one and leaves the contributor statistics unchanged. -/
theorem c6_witness :
    (aggregate [cBot] 12 2024).total
        = (aggregate ([] : List Commit) 12 2024).total + 1
    ∧ (aggregate [cBot] 12 2024).unique
        = (aggregate ([] : List Commit) 12 2024).unique
    ∧ (aggregateInsightsStyle [cBot] "apache/jmeter" 12 2024).human.unique
        = (aggregateInsightsStyle ([] : List Commit) "apache/jmeter" 12 2024).human.unique := by
  have h := c6_bot_counted_in_totals [] cBot "apache/jmeter" 12 2024 0
    (by decide) (by decide) (by decide)
  exact ⟨h.1, h.2.2.1, h.2.2.2.2.2.2.2.1⟩

/-- C2 counterexample: swapping two tied contributors permutes the input but
changes the topContributors list, so the YearAggregate is not identical under
reordering. -/
theorem c2_counterexample :
    (aggregate [caAlice, cbBob] 12 2024).top
      ≠ (aggregate [cbBob, caAlice] 12 2024).top := by
  rw [aggregate_top, aggregate_top, List.mergeSort_of_sorted (by decide),
    List.mergeSort_of_sorted (by decide)]
  decide

/-- C2 (amended): reordering the input commit sequence preserves every
statistic of all three aggregation functions — totals, monthly buckets,
averages, and unique contributor counts — except that the topContributors
list may order (or, under truncation, select among) equal-count contributors
differently, because ties are broken by first-seen order. -/
theorem c2_amended_perm_invariant (l l' : List Commit) (h : l.Perm l')
    (repo : String) (mc : Nat) (y : Int) (now : UTCDate) :
    (aggregate l mc y).total = (aggregate l' mc y).total
    ∧ (aggregate l mc y).monthly = (aggregate l' mc y).monthly
    ∧ (aggregate l mc y).avg = (aggregate l' mc y).avg
    ∧ (aggregate l mc y).unique = (aggregate l' mc y).unique
    ∧ (aggregateInsightsStyle l repo mc y).all.total
        = (aggregateInsightsStyle l' repo mc y).all.total
    ∧ (aggregateInsightsStyle l repo mc y).all.monthly
        = (aggregateInsightsStyle l' repo mc y).all.monthly
    ∧ (aggregateInsightsStyle l repo mc y).all.avg
        = (aggregateInsightsStyle l' repo mc y).all.avg
    ∧ (aggregateInsightsStyle l repo mc y).all.unique
        = (aggregateInsightsStyle l' repo mc y).all.unique
    ∧ (aggregateInsightsStyle l repo mc y).human.total
        = (aggregateInsightsStyle l' repo mc y).human.total
    ∧ (aggregateInsightsStyle l repo mc y).human.monthly
        = (aggregateInsightsStyle l' repo mc y).human.monthly
    ∧ (aggregateInsightsStyle l repo mc y).human.avg
        = (aggregateInsightsStyle l' repo mc y).human.avg
    ∧ (aggregateInsightsStyle l repo mc y).human.unique
        = (aggregateInsightsStyle l' repo mc y).human.unique
    ∧ (aggregateYear l y now).totalCommits = (aggregateYear l' y now).totalCommits
    ∧ (aggregateYear l y now).monthly = (aggregateYear l' y now).monthly
    ∧ (aggregateYear l y now).avgPerMonth = (aggregateYear l' y now).avgPerMonth
    ∧ (aggregateYear l y now).uniqueDevs = (aggregateYear l' y now).uniqueDevs := by
  refine ⟨?_, ?_, ?_, ?_, ?_, ?_, ?_, ?_, ?_, ?_, ?_, ?_, ?_, ?_, ?_, ?_⟩
  · rw [aggregate_total, aggregate_total]
    exact List.Perm.countP_eq _ h
  · rw [aggregate_monthlyFun, aggregate_monthlyFun]
    exact congrArg _ (funext fun m => List.Perm.countP_eq _ h)
  · rw [aggregate_avg, aggregate_avg, List.Perm.countP_eq _ h]
  · rw [aggregate_unique, aggregate_unique]
    unfold contribKeys
    exact congrArg Finset.card
      (List.toFinset_eq_of_perm _ _ ((h.filter _).map _))
  · rw [ins_all_total, ins_all_total]
    exact List.Perm.countP_eq _ h
  · rw [ins_all_monthly, ins_all_monthly]
    exact congrArg _ (funext fun m => List.Perm.countP_eq _ h)
  · rw [ins_all_avg, ins_all_avg, List.Perm.countP_eq _ h]
  · rw [ins_all_unique, ins_all_unique]
    exact congrArg Finset.card
      (List.toFinset_eq_of_perm _ _ ((h.filter _).map _))
  · rw [ins_human_total, ins_human_total]
    exact List.Perm.countP_eq _ h
  · rw [ins_human_monthly, ins_human_monthly]
    exact congrArg _ (funext fun m => List.Perm.countP_eq _ h)
  · rw [ins_human_avg, ins_human_avg, List.Perm.countP_eq _ h]
  · rw [ins_human_unique, ins_human_unique]
    exact congrArg Finset.card
      (List.toFinset_eq_of_perm _ _ ((h.filter _).map _))
  · rw [aggregateYear_total, aggregateYear_total]
    exact (h.filter _).length_eq
  · rw [aggregateYear_monthly, aggregateYear_monthly]
    exact congrArg _ (funext fun m => List.Perm.countP_eq _ (h.filter _))
  · rw [aggregateYear_avg, aggregateYear_avg, (h.filter _).length_eq]
  · rw [aggregateYear_unique, aggregateYear_unique]
    exact congrArg Finset.card
      (List.toFinset_eq_of_perm _ _ (((h.filter _).filter _).map _))

/-- C2 amended witness: a concrete swapped pair has identical totals and
unique counts. -/
theorem c2_amended_witness :
    (aggregate [caAlice, cbBob] 12 2024).total
        = (aggregate [cbBob, caAlice] 12 2024).total
    ∧ (aggregate [caAlice, cbBob] 12 2024).unique
        = (aggregate [cbBob, caAlice] 12 2024).unique := by
  have h := c2_amended_perm_invariant [caAlice, cbBob] [cbBob, caAlice]
    (List.Perm.swap cbBob caAlice []) "apache/jmeter" 12 2024 jan24
  exact ⟨h.1, h.2.2.2.1⟩

/-- C9: the paginated fetch follows the next-page links until none is
supplied, returning every page's items concatenated in page order; on a
non-success page it fails with that page's status code and body, and the
items accumulated from earlier pages are discarded, not returned. -/
theorem c9_pagination (world world' : Nat → PageResp) (url url' : Option Nat)
    (us : List Nat) (v n fuel fuel' : Nat)
    (h1 : Follows world url us) (hf : us.length ≤ fuel)
    (h2 : FailsAt world' url' v n) (hf' : n < fuel') :
    ghPaginated world fuel url = Except.ok (us.flatMap fun u => (world u).items)
    ∧ ghPaginated world' fuel' url'
        = Except.error (GhError.upstream (world' v).status (world' v).body) :=
  ⟨ghPaginated_ok world h1 fuel hf, ghPaginated_error world' h2 fuel' hf'⟩

/-- C9 witness: a concrete two-page chain concatenates in order, and a
concrete chain whose second page returns HTTP 500 yields only the error. -/
theorem c9_witness :
    ghPaginated wGood 2 (some 0) = Except.ok [1, 2, 3]
    ∧ ghPaginated wBad 2 (some 0)
        = Except.error (GhError.upstream 500 "boom") := by
  have hfollow : Follows wGood (some 0) [0, 1] :=
    Follows.cons (by decide) (Follows.cons (by decide) Follows.nil)
  have hfail : FailsAt wBad (some 0) 1 1 :=
    FailsAt.step (by decide) (FailsAt.here (by decide))
  have h := c9_pagination wGood wBad (some 0) (some 0) [0, 1] 1 1 2 2 hfollow
    (by decide) hfail (by decide)
  exact ⟨h.1.trans rfl, h.2⟩

theorem tallyFold_pairwise_rankP (p : Commit → Bool) (cs : List Commit) :
    (tallyFold p cs).Pairwise
      fun a b => rankP p cs a.1 < rankP p cs b.1 := by
  have hk : (tallyFold p cs).map Prod.fst = firstSeen (keysOf p cs) :=
    tallyFold_keys_firstSeen _ _
  have h := firstSeen_pairwise_indexOf (keysOf p cs)
  rw [← hk, List.pairwise_map] at h
  exact h

theorem mergeSort_tally_pairwise (p : Commit → Bool) (cs : List Commit) :
    ((tallyFold p cs).mergeSort fun a b => decide (b.2 ≤ a.2)).Pairwise
      (fun a b => b.2 < a.2 ∨ (b.2 = a.2 ∧ rankP p cs a.1 < rankP p cs b.1)) := by
  set T := tallyFold p cs with hT
  set S := T.mergeSort (fun a b => decide (b.2 ≤ a.2)) with hS
  have htrans : ∀ a b c : String × Nat,
      (fun a b => decide (b.2 ≤ a.2)) a b → (fun a b => decide (b.2 ≤ a.2)) b c →
      (fun a b => decide (b.2 ≤ a.2)) a c := by
    intro a b c hab hbc
    simp only [decide_eq_true_eq] at *
    omega
  have htotal : ∀ a b : String × Nat,
      (fun a b => decide (b.2 ≤ a.2)) a b || (fun a b => decide (b.2 ≤ a.2)) b a := by
    intro a b
    rcases Nat.le_total b.2 a.2 with h | h <;> simp [h]
  have hperm : S.Perm T := List.mergeSort_perm T _
  have hsorted : S.Pairwise fun a b => decide (b.2 ≤ a.2) :=
    List.sorted_mergeSort htrans htotal T
  have hnodT : T.Nodup := (tallyFold_nodup_keys p cs).of_map
  have hnodS : S.Nodup := hperm.symm.nodup hnodT
  have hrankT : T.Pairwise fun a b => rankP p cs a.1 < rankP p cs b.1 :=
    tallyFold_pairwise_rankP p cs
  rw [List.pairwise_iff_getElem] at hsorted ⊢
  intro i j hi hj hij
  have hle := hsorted i j hi hj hij
  have hle2 : S[j].2 ≤ S[i].2 := by simpa using hle
  rcases Nat.lt_or_ge S[j].2 S[i].2 with hlt | hge
  · exact Or.inl hlt
  · have heq : S[j].2 = S[i].2 := Nat.le_antisymm hle2 hge
    refine Or.inr ⟨heq, ?_⟩
    have hne : S[i] ≠ S[j] := fun hcon =>
      absurd (hnodS.getElem_inj_iff.mp hcon) (Nat.ne_of_lt hij)
    have hiT : S[i] ∈ T := List.mem_mergeSort.mp (List.getElem_mem hi)
    have hjT : S[j] ∈ T := List.mem_mergeSort.mp (List.getElem_mem hj)
    rcases pair_sublist_of_mem hiT hjT hne with hsub | hsub
    · have hp2 : List.Pairwise
          (fun a b : String × Nat => rankP p cs a.1 < rankP p cs b.1)
          [S[i], S[j]] := hrankT.sublist hsub
      exact List.rel_of_pairwise_cons hp2 (List.mem_singleton_self _)
    · exfalso
      have hlle : (fun a b => decide (b.2 ≤ a.2)) S[j] S[i] = true := by
        simpa using hge
      have hsubS : [S[j], S[i]].Sublist S :=
        List.pair_sublist_mergeSort htrans htotal hlle hsub
      obtain ⟨i2, j2, hi2, hj2, hij2, hgi, hgj⟩ := sublist_pair_index hsubS
      have h1 : i2 = j := hnodS.getElem_inj_iff.mp hgi
      have h2 : j2 = i := hnodS.getElem_inj_iff.mp hgj
      omega

theorem mergeSort_tally_eq_sorted (p : Commit → Bool) (cs : List Commit)
    (L : List (String × Nat)) (hperm : (tallyFold p cs).Perm L)
    (hL : L.Pairwise
      (fun a b => b.2 < a.2 ∨ (b.2 = a.2 ∧ rankP p cs a.1 < rankP p cs b.1))) :
    (tallyFold p cs).mergeSort (fun a b => decide (b.2 ≤ a.2)) = L := by
  haveI : IsAntisymm (String × Nat)
      (fun a b => b.2 < a.2 ∨ (b.2 = a.2 ∧ rankP p cs a.1 < rankP p cs b.1)) := by
    constructor
    intro a b hab hba
    exfalso
    rcases hab with h1 | ⟨h1, h2⟩ <;> rcases hba with h3 | ⟨h3, h4⟩ <;> omega
  exact List.eq_of_perm_of_sorted ((List.mergeSort_perm _ _).trans hperm)
    (mergeSort_tally_pairwise p cs) hL

theorem tally_entry_facts (p : Commit → Bool) (cs : List Commit)
    {q : String × Nat} (hq : q ∈ tallyFold p cs) :
    q.2 = cs.countP (fun c => p c && decide (authorId c = q.1))
    ∧ q.1 ∈ keysOf p cs := by
  constructor
  · have hv : tallyGet (tallyFold p cs) q.1 = q.2 :=
      tallyGet_of_mem (tallyFold_nodup_keys p cs) hq
    have hg : tallyGet (tallyFold p cs) q.1
        = tallyGet [] q.1
          + cs.countP (fun c => p c && decide (authorId c = q.1)) := by
      unfold tallyFold
      exact tallyFold_get _ _ _ _
    rw [← hv, hg]
    simp [tallyGet]
  · exact (tallyFold_mem_keys p cs).mp (List.mem_map_of_mem Prod.fst hq)

/-- C7: topContributors is exactly the per-author tally sorted in descending
order of commit count with ties broken by first-seen order, truncated to at
most five entries: whenever L rearranges the tally into that order (a
permutation of the tally that is pairwise sorted by strictly-greater count,
or equal count and strictly earlier first appearance among the tallied
commits), the aggregator output equals L.take 5, and such an L always
exists.  This holds for part_000 aggregate and for the human view of
aggregateInsightsStyle.  Moreover every entry of either top list carries
the exact tallied commit count of its key, and its key is the resolved
identity of some commit the classifier passed as human — so no
classified-bot identity ever appears. -/
theorem c7_top_contributors (cs : List Commit) (repo : String) (mc : Nat)
    (y : Int) :
    (∀ L, (tallyFold (humanKeptP0 y) cs).Perm L →
      L.Pairwise (fun a b => b.2 < a.2
        ∨ (b.2 = a.2
            ∧ rankP (humanKeptP0 y) cs a.1 < rankP (humanKeptP0 y) cs b.1)) →
      (aggregate cs mc y).top = L.take 5)
    ∧ (∃ L, (tallyFold (humanKeptP0 y) cs).Perm L
        ∧ L.Pairwise (fun a b => b.2 < a.2
            ∨ (b.2 = a.2
                ∧ rankP (humanKeptP0 y) cs a.1 < rankP (humanKeptP0 y) cs b.1)))
    ∧ (∀ L, (tallyFold (humanKeptIns repo y) cs).Perm L →
      L.Pairwise (fun a b => b.2 < a.2
        ∨ (b.2 = a.2
            ∧ rankP (humanKeptIns repo y) cs a.1
                < rankP (humanKeptIns repo y) cs b.1)) →
      (aggregateInsightsStyle cs repo mc y).human.top = L.take 5)
    ∧ (∃ L, (tallyFold (humanKeptIns repo y) cs).Perm L
        ∧ L.Pairwise (fun a b => b.2 < a.2
            ∨ (b.2 = a.2
                ∧ rankP (humanKeptIns repo y) cs a.1
                    < rankP (humanKeptIns repo y) cs b.1)))
    ∧ (∀ q ∈ (aggregate cs mc y).top,
        q.2 = cs.countP (fun c => humanKeptP0 y c && decide (authorId c = q.1))
        ∧ q.1 ∈ keysOf (humanKeptP0 y) cs)
    ∧ (∀ q ∈ (aggregateInsightsStyle cs repo mc y).human.top,
        q.2 = cs.countP
            (fun c => humanKeptIns repo y c && decide (authorId c = q.1))
        ∧ q.1 ∈ keysOf (humanKeptIns repo y) cs) := by
  refine ⟨?_, ?_, ?_, ?_, ?_, ?_⟩
  · intro L hperm hL
    rw [aggregate_top, mergeSort_tally_eq_sorted (humanKeptP0 y) cs L hperm hL]
  · exact ⟨(tallyFold (humanKeptP0 y) cs).mergeSort
        (fun a b => decide (b.2 ≤ a.2)),
      (List.mergeSort_perm _ _).symm, mergeSort_tally_pairwise (humanKeptP0 y) cs⟩
  · intro L hperm hL
    rw [ins_human_top,
      mergeSort_tally_eq_sorted (humanKeptIns repo y) cs L hperm hL]
  · exact ⟨(tallyFold (humanKeptIns repo y) cs).mergeSort
        (fun a b => decide (b.2 ≤ a.2)),
      (List.mergeSort_perm _ _).symm,
      mergeSort_tally_pairwise (humanKeptIns repo y) cs⟩
  · intro q hq
    rw [aggregate_top] at hq
    exact tally_entry_facts (humanKeptP0 y) cs
      (List.mem_mergeSort.mp ((List.take_sublist 5 _).subset hq))
  · intro q hq
    rw [ins_human_top] at hq
    exact tally_entry_facts (humanKeptIns repo y) cs
      (List.mem_mergeSort.mp ((List.take_sublist 5 _).subset hq))

/-- C7 witness: on a concrete input of two tied humans and one bot, both top
lists equal exactly the first-seen-ordered human tally. -/
theorem c7_witness :
    (aggregate [caAlice, cbBob, cBot] 12 2024).top = [("alice", 1), ("bob", 1)]
    ∧ (aggregateInsightsStyle [caAlice, cbBob, cBot] "apache/jmeter" 12
        2024).human.top = [("alice", 1), ("bob", 1)] := by
  have h := c7_top_contributors [caAlice, cbBob, cBot] "apache/jmeter" 12 2024
  constructor
  · exact (h.1 [("alice", 1), ("bob", 1)] (by decide) (by decide)).trans
      (by decide)
  · exact (h.2.2.1 [("alice", 1), ("bob", 1)] (by decide) (by decide)).trans
      (by decide)

end OssStats
